import Mathlib

/-!
Multicast client/server example: header codec and loss accounting

Shallow embedding of `src/server.c` (sender loop), `src/client.c`
(receive loop) and `src/msock.c` (socket construction).

Machine integers: `unsigned int` values are natural numbers reduced modulo
`2^32`; `int` values are integers in `[-2^31, 2^31)`.  Conversions between
the two are the usual two's complement ones, and `int` arithmetic that
leaves the range (`++rcvd`, `nr++`, `server_id << 30`) wraps around, which is
what the mainstream compilers produce for this code.
-/

namespace Multicast

/-! ## 32-bit machine integers -/

/-- Conversion of a mathematical integer to `int`: two's complement wraparound. -/
def wrapInt32 (x : Int) : Int := (x + 2147483648) % 4294967296 - 2147483648

/-- Conversion of an `int` to `unsigned int`. -/
def intToU (i : Int) : Nat := (i % 4294967296).toNat

/-- Conversion of an `unsigned int` to `int`. -/
def uToInt (u : Nat) : Int := wrapInt32 (u : Int)

/-- Addition of two `unsigned int`. -/
def uadd (a b : Nat) : Nat := (a + b) % 4294967296

/-- Subtraction of two `unsigned int`. -/
def usub (a b : Nat) : Nat := (a % 4294967296 + 4294967296 - b % 4294967296) % 4294967296

/-- Addition of two `int`. -/
def iadd (a b : Int) : Int := wrapInt32 (a + b)

/-- Left shift of an `int` by 30 bits (`server_id << 30`). -/
def ishl30 (a : Int) : Int := wrapInt32 (a * 1073741824)

/-! ## Memory and byte order -/

/-- Four consecutive bytes of a buffer, `b0` at the lowest address. -/
structure Word4 where
  b0 : Fin 256
  b1 : Fin 256
  b2 : Fin 256
  b3 : Fin 256
deriving DecidableEq, Repr

/-- Byte number `k` (0 = least significant) of a 32-bit value. -/
def byteOf (x : Nat) (k : Nat) : Fin 256 :=
  ⟨(x / 256 ^ k) % 256, Nat.mod_lt _ (by decide)⟩

/-- Storing a 32-bit value through an `unsigned int*` on a host that is
little-endian (`le = true`) or big-endian (`le = false`). -/
def storeU32 (le : Bool) (x : Nat) : Word4 :=
  if le then ⟨byteOf x 0, byteOf x 1, byteOf x 2, byteOf x 3⟩
  else ⟨byteOf x 3, byteOf x 2, byteOf x 1, byteOf x 0⟩

/-- Loading a 32-bit value through an `unsigned int*`. -/
def loadU32 (le : Bool) (w : Word4) : Nat :=
  if le then w.b0.val + 256 * w.b1.val + 65536 * w.b2.val + 16777216 * w.b3.val
  else w.b3.val + 256 * w.b2.val + 65536 * w.b1.val + 16777216 * w.b0.val

/-- Loading through an `int*`, as in `*(int*)recvBuf`. -/
def loadInt (le : Bool) (w : Word4) : Int := uToInt (loadU32 le w)

/-- Byte swap of a 32-bit value. -/
def bswap32 (x : Nat) : Nat :=
  (x % 256) * 16777216 + (x / 256 % 256) * 65536 + (x / 65536 % 256) * 256
    + (x / 16777216 % 256)

/-- Host to network order: a byte swap on a little-endian host, the identity
on a big-endian one. -/
def htonl (le : Bool) (x : Nat) : Nat :=
  if le then bswap32 x else x % 4294967296

/-- Network to host order. -/
def ntohl (le : Bool) (x : Nat) : Nat :=
  if le then bswap32 x else x % 4294967296

/-! ## server.c: the sender loop -/

/-- The check on `server_id` in `main` of server.c, followed by
`int nr = server_id << 30;`.  `none` is `DieWithError`. -/
def serverInit (server_id : Int) : Option Int :=
  if server_id < 0 ∨ server_id > 3 then none else some (ishl30 server_id)

/-- The header written by `*p_nr = htonl(nr);` into the first four bytes of
the send buffer. -/
def serverPacket (le : Bool) (nr : Int) : Word4 :=
  storeU32 le (htonl le (intToU nr))

/-- The headers of the first `n` datagrams sent by the loop of server.c,
started with counter value `nr`; each iteration ends with `nr++`. -/
def serverLoop (le : Bool) : Int → Nat → List Word4
  | _, 0 => []
  | nr, n + 1 => serverPacket le nr :: serverLoop le (iadd nr 1) n

/-- The headers of the first `n` datagrams of a sender started with the
command line argument `server_id`. -/
def serverRun (le : Bool) (server_id : Int) (n : Nat) : Option (List Word4) :=
  (serverInit server_id).map fun nr => serverLoop le nr n

/-! ## client.c: the receive loop -/

/-- Number of slots of `last_p`. -/
def MAX_SERVER_IDS : Nat := 4

/-- The variables of the receive loop. -/
structure LossState where
  rcvd : Int
  lost : Int
  last_p : List Int
deriving DecidableEq, Repr

/-- The state before the first iteration. -/
def initState : LossState := ⟨0, 0, [0, 0, 0, 0]⟩

/-- Reading `last_p[i]` with an `int` index; `none` outside the table. -/
def readSlot (xs : List Int) (i : Int) : Option Int :=
  if 0 ≤ i then xs[i.toNat]? else none

/-- Writing `last_p[i] = v`. -/
def writeSlot (xs : List Int) (i : Int) (v : Int) : List Int :=
  xs.set i.toNat v

/-- The decoding lines of the loop body:
`this_p = ntohl(*(int*)recvBuf); server_id = this_p >> 30; this_p &= 0x3fffffff`. -/
def decodeHeader (le : Bool) (recvBuf : Word4) : Int × Nat :=
  let this_p : Nat := ntohl le (intToU (loadInt le recvBuf))
  let server_id : Int := uToInt (this_p >>> 30)
  (server_id, this_p &&& 0x3fffffff)

/-- The accounting lines of the loop body, from `++rcvd` to
`last_p[server_id] = this_p`.  `none` is an access outside `last_p`. -/
def observe (st : LossState) (server_id : Int) (this_p : Nat) : Option LossState :=
  let rcvd := iadd st.rcvd 1
  match readSlot st.last_p server_id with
  | none => none
  | some last =>
    let lost :=
      if last ≥ 0 then
        if usub this_p (intToU last) > 1 then
          uToInt (uadd (intToU st.lost) (usub this_p (intToU (iadd last 1))))
        else st.lost
      else st.lost
    some ⟨rcvd, lost, writeSlot st.last_p server_id (uToInt this_p)⟩

/-- One pass of the loop body on a received datagram. -/
def clientStep (le : Bool) (st : LossState) (recvBuf : Word4) : Option LossState :=
  observe st (decodeHeader le recvBuf).1 (decodeHeader le recvBuf).2

/-- The receive loop run on a list of received datagrams. -/
def clientRun (le : Bool) : LossState → List Word4 → Option LossState
  | st, [] => some st
  | st, b :: bs => (clientStep le st b).bind fun st1 => clientRun le st1 bs

/-- The accounting part of the loop run on decoded `(server_id, this_p)` pairs. -/
def observeAll : LossState → List (Int × Nat) → Option LossState
  | st, [] => some st
  | st, p :: ps => (observe st p.1 p.2).bind fun st1 => observeAll st1 ps

/-- A state the receive loop can be in: the result of running it, from the
initial state, on some list of received datagrams. -/
def Reachable (st : LossState) : Prop :=
  ∃ (le : Bool) (bufs : List Word4), clientRun le initState bufs = some st

/-- Sequence numbers added to the loss count by a packet with number `this_p`
when the last one seen was `last`: nothing when the difference is 0 or 1,
the difference minus one otherwise (negative when `this_p` is the smaller). -/
def gapDelta (last : Int) (this_p : Nat) : Int :=
  if (this_p : Int) - last = 0 ∨ (this_p : Int) - last = 1 then 0
  else (this_p : Int) - last - 1

/-- A table of four slots, each holding a 30-bit sequence number. -/
def SlotsOk (xs : List Int) : Prop :=
  xs.length = 4 ∧ ∀ x ∈ xs, 0 ≤ x ∧ x < 1073741824

/-- A state whose counters are `int` values and whose table is well formed. -/
def StateOk (st : LossState) : Prop :=
  SlotsOk st.last_p ∧ (-2147483648 ≤ st.rcvd ∧ st.rcvd < 2147483648)
    ∧ (-2147483648 ≤ st.lost ∧ st.lost < 2147483648)

/-- Merges of a stream `as` of sequence numbers sent by sender 0 and a stream
`bs` sent by sender 1, as lists of decoded `(server_id, this_p)` pairs. -/
inductive Interleaving : List Nat → List Nat → List (Int × Nat) → Prop
  | nil : Interleaving [] [] []
  | left (q : Nat) {as bs : List Nat} {cs : List (Int × Nat)} :
      Interleaving as bs cs → Interleaving (q :: as) bs ((0, q) :: cs)
  | right (q : Nat) {as bs : List Nat} {cs : List (Int × Nat)} :
      Interleaving as bs cs → Interleaving as (q :: bs) ((1, q) :: cs)

/-- The stream of one sender tagged with its id. -/
def tagged (server_id : Int) (qs : List Nat) : List (Int × Nat) :=
  qs.map fun q => (server_id, q)

/-! ## msock.c: mcast_send_socket -/

/-- Address family of a resolved address. -/
inductive Family
  | inet
  | inet6
  | other
deriving DecidableEq, Repr

/-- Outcomes of the system calls made by `mcast_send_socket`. -/
structure SendCalls where
  /-- Result of `getaddrinfo`: the family of the resolved address, or `none` when the status is not 0. -/
  resolved : Option Family
  /-- Return value of `socket`. -/
  socketRet : Int
  /-- Whether the `setsockopt` of the TTL / hop limit returns 0. -/
  ttlOk : Bool
  /-- Whether the `setsockopt` of the outgoing interface returns 0. -/
  ifaceOk : Bool
deriving DecidableEq, Repr

/-- Resources held by `mcast_send_socket`. -/
structure SendResources where
  addrAllocated : Bool
  sockOpen : Bool
deriving DecidableEq, Repr

/-- Effect of `freeaddrinfo(*addrinfo)`. -/
def freeaddrinfo (r : SendResources) : SendResources := { r with addrAllocated := false }

/-- The function `mcast_send_socket`: its return value and the resources held
at return. -/
def mcast_send_socket (o : SendCalls) : Int × SendResources :=
  match o.resolved with
  | none => (-1, ⟨false, false⟩)
  | some fam =>
    let r0 : SendResources := ⟨true, false⟩
    if o.socketRet < 0 then (-1, freeaddrinfo r0)
    else
      let r1 : SendResources := { r0 with sockOpen := true }
      if o.ttlOk = false then (-1, freeaddrinfo r1)
      else
        match fam with
        | Family.inet => if o.ifaceOk = false then (-1, freeaddrinfo r1) else (o.socketRet, r1)
        | Family.inet6 => if o.ifaceOk = false then (-1, freeaddrinfo r1) else (o.socketRet, r1)
        | Family.other => (-1, r1)

/-- Some step of the construction fails: resolution, socket open, TTL option,
outgoing-interface option, or a family that is neither IPv4 nor IPv6. -/
def SendCalls.stepFails (o : SendCalls) : Prop :=
  o.resolved = none ∨ o.socketRet < 0 ∨ o.ttlOk = false ∨ o.ifaceOk = false
    ∨ o.resolved = some Family.other

/-! ## msock.c: the bind loop of mcast_recv_socket -/

/-- The fields of a `struct addrinfo` used by the bind loop. -/
structure AddrInfo where
  ai_family : Nat
  ai_socktype : Nat
  ai_addr : Nat
deriving DecidableEq, Repr

/-- Outcomes of the system calls of the bind loop, fixed by their arguments:
`socket` by family and type, `setsockopt(SO_REUSEADDR)` by the family and type
of the socket, `bind` by the family and type of the socket and the address. -/
structure BindCalls where
  socketOk : Nat → Nat → Bool
  reuseOk : Nat → Nat → Bool
  bindOk : Nat → Nat → Nat → Bool

/-- A system call made by the bind loop, with its arguments. -/
inductive SysCall
  | socket (family socktype : Nat)
  | reuseaddr (fd : Nat)
  | bind (fd : Nat) (addr : Nat)
  | close (fd : Nat)
deriving DecidableEq, Repr

/-- State of the bind loop: the next free descriptor, the descriptors that
are open, and the calls made so far. -/
structure BindState where
  nextFd : Nat
  openFds : List Nat
  calls : List SysCall
deriving DecidableEq, Repr

/-- The loop `for (la = localAddr; la != NULL; la = la->ai_next)`; the second
argument is the list still to be walked by `la`.  The body reads the fields
of `localAddr`.  The result is the bound socket, or `none` when the loop ends
with `la == NULL`. -/
def bindLoop (o : BindCalls) (localAddr : AddrInfo) :
    List AddrInfo → BindState → Option Nat × BindState
  | [], st => (none, st)
  | _ :: rest, st =>
    let st1 : BindState :=
      { st with calls := st.calls ++ [SysCall.socket localAddr.ai_family localAddr.ai_socktype] }
    if o.socketOk localAddr.ai_family localAddr.ai_socktype = false then
      bindLoop o localAddr rest st1
    else
      let sock := st1.nextFd
      let st2 : BindState :=
        { st1 with nextFd := sock + 1, openFds := sock :: st1.openFds,
                   calls := st1.calls ++ [SysCall.reuseaddr sock] }
      if o.reuseOk localAddr.ai_family localAddr.ai_socktype then
        let st3 : BindState :=
          { st2 with calls := st2.calls ++ [SysCall.bind sock localAddr.ai_addr] }
        if o.bindOk localAddr.ai_family localAddr.ai_socktype localAddr.ai_addr then
          (some sock, st3)
        else
          bindLoop o localAddr rest
            { st3 with openFds := st3.openFds.erase sock,
                       calls := st3.calls ++ [SysCall.close sock] }
      else
        bindLoop o localAddr rest
          { st2 with openFds := st2.openFds.erase sock,
                     calls := st2.calls ++ [SysCall.close sock] }

theorem intToU_lt (i : Int) : intToU i < 4294967296 := by
  unfold intToU; omega

theorem intToU_uToInt (u : Nat) : intToU (uToInt u) = u % 4294967296 := by
  unfold intToU uToInt wrapInt32; omega

theorem wrapInt32_of_range (x : Int) (h0 : -2147483648 ≤ x) (h1 : x < 2147483648) :
    wrapInt32 x = x := by
  unfold wrapInt32; omega

theorem wrapInt32_range (x : Int) : -2147483648 ≤ wrapInt32 x ∧ wrapInt32 x < 2147483648 := by
  unfold wrapInt32; omega

theorem shr30_eq (x : Nat) : x >>> 30 = x / 1073741824 := by
  rw [Nat.shiftRight_eq_div_pow]

theorem and30_eq (x : Nat) : x &&& 0x3fffffff = x % 1073741824 := by
  have h := Nat.and_pow_two_sub_one_eq_mod x 30
  norm_num at h
  exact h

/-! ## Codec lemmas -/

theorem byte_decomp (a b c d : Nat) (ha : a < 256) (hb : b < 256) (hc : c < 256)
    (hd : d < 256) :
    (a * 16777216 + b * 65536 + c * 256 + d) % 256 = d
      ∧ (a * 16777216 + b * 65536 + c * 256 + d) / 256 % 256 = c
      ∧ (a * 16777216 + b * 65536 + c * 256 + d) / 65536 % 256 = b
      ∧ (a * 16777216 + b * 65536 + c * 256 + d) / 16777216 % 256 = a := by
  refine ⟨?_, ?_, ?_, ?_⟩ <;> omega

/-- The bytes on the wire are big-endian whatever the byte order of the sender. -/
theorem serverPacket_bigEndian (le : Bool) (nr : Int) :
    serverPacket le nr
      = ⟨byteOf (intToU nr) 3, byteOf (intToU nr) 2, byteOf (intToU nr) 1, byteOf (intToU nr) 0⟩ := by
  have hx := intToU_lt nr
  cases le
  · simp only [serverPacket, storeU32, htonl, byteOf, Bool.false_eq_true, if_false,
      Word4.mk.injEq, Fin.mk.injEq, Nat.reducePow, Nat.div_one]
    refine ⟨?_, ?_, ?_, ?_⟩ <;> omega
  · obtain ⟨h0, h1, h2, h3⟩ := byte_decomp (intToU nr % 256) (intToU nr / 256 % 256)
      (intToU nr / 65536 % 256) (intToU nr / 16777216 % 256)
      (Nat.mod_lt _ (by decide)) (Nat.mod_lt _ (by decide)) (Nat.mod_lt _ (by decide))
      (Nat.mod_lt _ (by decide))
    simp only [serverPacket, storeU32, htonl, byteOf, bswap32, if_true,
      Word4.mk.injEq, Fin.mk.injEq, Nat.reducePow, Nat.div_one]
    refine ⟨?_, ?_, ?_, ?_⟩
    · rw [h0]
    · rw [h1]
    · rw [h2]
    · rw [h3]

/-- The receiver reads the four bytes as a big-endian number whatever its
byte order. -/
theorem ntohl_load (le : Bool) (w : Word4) :
    ntohl le (intToU (loadInt le w))
      = w.b3.val + 256 * w.b2.val + 65536 * w.b1.val + 16777216 * w.b0.val := by
  have h0 := w.b0.isLt
  have h1 := w.b1.isLt
  have h2 := w.b2.isLt
  have h3 := w.b3.isLt
  cases le
  · simp only [ntohl, loadInt, loadU32, intToU_uToInt, Bool.false_eq_true, if_false]
    omega
  · simp only [ntohl, loadInt, loadU32, intToU_uToInt, bswap32, if_true]
    omega

theorem decodeHeader_eq (le : Bool) (w : Word4) :
    decodeHeader le w
      = (((w.b0.val / 64 : Nat) : Int),
          w.b3.val + 256 * w.b2.val + 65536 * w.b1.val + 16777216 * (w.b0.val % 64)) := by
  have h0 := w.b0.isLt
  have h1 := w.b1.isLt
  have h2 := w.b2.isLt
  have h3 := w.b3.isLt
  simp only [decodeHeader, ntohl_load, shr30_eq, and30_eq, uToInt, wrapInt32]
  refine Prod.ext ?_ ?_
  · simp only []; omega
  · simp only []; omega

theorem decodeHeader_serverPacket (le le2 : Bool) (nr : Int) :
    decodeHeader le2 (serverPacket le nr)
      = (((intToU nr / 1073741824 : Nat) : Int), intToU nr % 1073741824) := by
  have hx := intToU_lt nr
  rw [serverPacket_bigEndian, decodeHeader_eq]
  refine Prod.ext ?_ ?_
  · simp only [byteOf, Nat.reducePow, Nat.div_one]; omega
  · simp only [byteOf, Nat.reducePow, Nat.div_one]; omega

/-! ## The sender loop in closed form -/

theorem intToU_wrapInt32_add (a b : Int) : intToU (wrapInt32 a + b) = intToU (a + b) := by
  unfold intToU wrapInt32; omega

theorem serverLoop_getElem (le : Bool) (n : Nat) :
    ∀ (nr : Int) (k : Nat), k < n →
      (serverLoop le nr n)[k]? = some (serverPacket le (nr + k)) := by
  induction n with
  | zero => intro nr k hk; omega
  | succ n ih =>
    intro nr k hk
    cases k with
    | zero => simp [serverLoop]
    | succ k =>
      have hk2 : k < n := by omega
      simp only [serverLoop, List.getElem?_cons_succ]
      rw [ih (iadd nr 1) k hk2]
      have e : nr + 1 + (k : Int) = nr + ((k + 1 : Nat) : Int) := by push_cast; ring
      simp only [serverPacket, iadd, intToU_wrapInt32_add, e]

/-- Packet number `k` of the sender loop carries the counter value
`(server_id << 30) + k`. -/
theorem serverRun_getElem (le : Bool) (s k : Nat) (hs : s ≤ 3) :
    (serverRun le (s : Int) (k + 1)).bind (fun l => l[k]?)
      = some (serverPacket le ((s : Int) * 1073741824 + k)) := by
  have hinit : serverInit (s : Int) = some (ishl30 s) := by
    unfold serverInit
    rw [if_neg]; omega
  simp only [serverRun, hinit, Option.map_some', Option.some_bind]
  rw [serverLoop_getElem le (k + 1) (ishl30 s) k (by omega)]
  simp only [serverPacket, ishl30, intToU_wrapInt32_add]

theorem intToU_counter (s k : Nat) :
    intToU ((s : Int) * 1073741824 + k) = (s * 1073741824 + k) % 4294967296 := by
  unfold intToU; omega

/-! ## The accounting step in closed form -/

theorem readSlot_nat (xs : List Int) (s : Nat) : readSlot xs (s : Int) = xs[s]? := by
  simp [readSlot]

theorem writeSlot_nat (xs : List Int) (s : Nat) (v : Int) :
    writeSlot xs (s : Int) v = xs.set s v := by
  simp [writeSlot]

theorem slot_bounds (xs : List Int) (h : SlotsOk xs) (s : Nat) (hs : s ≤ 3) :
    ∃ last, xs[s]? = some last ∧ 0 ≤ last ∧ last < 1073741824 := by
  have hlt : s < xs.length := by rw [h.1]; omega
  refine ⟨xs[s], List.getElem?_eq_getElem hlt, h.2 _ (List.getElem_mem hlt)⟩

theorem slotsOk_set (xs : List Int) (h : SlotsOk xs) (s : Nat) (v : Int)
    (hv : 0 ≤ v ∧ v < 1073741824) : SlotsOk (xs.set s v) := by
  refine ⟨by rw [List.length_set]; exact h.1, ?_⟩
  intro x hx
  rcases List.mem_or_eq_of_mem_set hx with hx | hx
  · exact h.2 x hx
  · rw [hx]; exact hv

/-- The lost counter after one step, in closed form. -/
theorem lost_update (lost last : Int) (this_p : Nat)
    (hl : -2147483648 ≤ lost ∧ lost < 2147483648)
    (hlast : 0 ≤ last ∧ last < 1073741824) (hp : this_p < 1073741824) :
    (if last ≥ 0 then
        if usub this_p (intToU last) > 1 then
          uToInt (uadd (intToU lost) (usub this_p (intToU (iadd last 1))))
        else lost
      else lost) = wrapInt32 (lost + gapDelta last this_p) := by
  unfold gapDelta usub uadd uToInt intToU iadd wrapInt32
  split_ifs <;> omega

theorem uToInt_small (u : Nat) (h : u < 1073741824) : uToInt u = (u : Int) := by
  unfold uToInt wrapInt32; omega

theorem observe_eq (st : LossState) (hst : StateOk st) (s : Nat) (hs : s ≤ 3)
    (this_p : Nat) (hp : this_p < 1073741824) :
    ∃ last, st.last_p[s]? = some last ∧ 0 ≤ last ∧ last < 1073741824 ∧
      observe st (s : Int) this_p
        = some ⟨wrapInt32 (st.rcvd + 1), wrapInt32 (st.lost + gapDelta last this_p),
            st.last_p.set s (this_p : Int)⟩ := by
  obtain ⟨last, hget, h0, h1⟩ := slot_bounds st.last_p hst.1 s hs
  refine ⟨last, hget, h0, h1, ?_⟩
  unfold observe
  rw [readSlot_nat, hget]
  simp only [writeSlot_nat, uToInt_small this_p hp]
  rw [lost_update st.lost last this_p hst.2.2 ⟨h0, h1⟩ hp]
  rfl

theorem observe_ok (st : LossState) (hst : StateOk st) (s : Nat) (hs : s ≤ 3)
    (this_p : Nat) (hp : this_p < 1073741824) (st1 : LossState)
    (h : observe st (s : Int) this_p = some st1) : StateOk st1 := by
  obtain ⟨last, _, _, _, heq⟩ := observe_eq st hst s hs this_p hp
  rw [heq] at h
  injection h with h
  subst h
  refine ⟨slotsOk_set _ hst.1 _ _ ⟨by omega, by omega⟩, wrapInt32_range _, wrapInt32_range _⟩

theorem stateOk_init : StateOk initState := by
  refine ⟨⟨rfl, ?_⟩, by decide, by decide⟩
  intro x hx
  simp [initState] at hx
  omega

/-- Every header decodes to a sender id in `[0,3]` and a 30-bit sequence number. -/
theorem decodeHeader_range (le : Bool) (w : Word4) :
    ∃ s : Nat, s ≤ 3 ∧ (decodeHeader le w).1 = (s : Int) ∧ (decodeHeader le w).2 < 1073741824 := by
  have h0 := w.b0.isLt
  have h1 := w.b1.isLt
  have h2 := w.b2.isLt
  have h3 := w.b3.isLt
  rw [decodeHeader_eq]
  refine ⟨w.b0.val / 64, by omega, rfl, ?_⟩
  simp only []
  omega

theorem clientRun_eq_observeAll (le : Bool) (bufs : List Word4) :
    ∀ st, clientRun le st bufs = observeAll st (bufs.map (decodeHeader le)) := by
  induction bufs with
  | nil => intro st; rfl
  | cons b bs ih =>
    intro st
    simp only [clientRun, observeAll, List.map_cons, clientStep]
    cases observe st (decodeHeader le b).1 (decodeHeader le b).2 with
    | none => rfl
    | some st1 => simp only [Option.some_bind]; exact ih st1

/-- The accounting never fails and keeps the state well formed. -/
theorem observeAll_ok (ps : List (Int × Nat)) :
    ∀ st, StateOk st →
      (∀ p ∈ ps, ∃ s : Nat, s ≤ 3 ∧ p.1 = (s : Int) ∧ p.2 < 1073741824) →
      ∃ st1, observeAll st ps = some st1 ∧ StateOk st1 := by
  induction ps with
  | nil => intro st hst _; exact ⟨st, rfl, hst⟩
  | cons p ps ih =>
    intro st hst hps
    obtain ⟨s, hs, hp1, hp2⟩ := hps p (List.mem_cons_self _ _)
    obtain ⟨last, _, _, _, heq⟩ := observe_eq st hst s hs p.2 hp2
    have hok := observe_ok st hst s hs p.2 hp2 _ heq
    obtain ⟨st1, h1, h2⟩ := ih _ hok (fun q hq => hps q (List.mem_cons_of_mem _ hq))
    refine ⟨st1, ?_, h2⟩
    simp only [observeAll, hp1, heq, Option.some_bind]
    exact h1

theorem clientRun_ok (le : Bool) (bufs : List Word4) :
    ∃ st, clientRun le initState bufs = some st ∧ StateOk st := by
  rw [clientRun_eq_observeAll]
  apply observeAll_ok _ _ stateOk_init
  intro p hp
  obtain ⟨w, _, hw⟩ := List.mem_map.mp hp
  subst hw
  exact decodeHeader_range le w

theorem reachable_ok (st : LossState) (h : Reachable st) : StateOk st := by
  obtain ⟨le, bufs, hrun⟩ := h
  obtain ⟨st1, h1, h2⟩ := clientRun_ok le bufs
  rw [hrun] at h1
  injection h1 with h1
  rw [h1]; exact h2

theorem observeAll_append (ps qs : List (Int × Nat)) :
    ∀ st, observeAll st (ps ++ qs) = (observeAll st ps).bind fun st1 => observeAll st1 qs := by
  induction ps with
  | nil => intro st; rfl
  | cons p ps ih =>
    intro st
    simp only [List.cons_append, observeAll]
    cases observe st p.1 p.2 with
    | none => rfl
    | some st1 => simp only [Option.some_bind]; exact ih st1

/-! ## Header codec -/

theorem intToU_wrapInt32 (x : Int) : intToU (wrapInt32 x) = intToU x := by
  unfold intToU wrapInt32; omega

theorem serverPacket_counter (le : Bool) (s k : Nat) :
    serverPacket le (iadd (ishl30 (s : Int)) (k : Int))
      = serverPacket le ((s : Int) * 1073741824 + k) := by
  simp only [serverPacket, iadd, ishl30, intToU_wrapInt32, intToU_wrapInt32_add]

theorem decode_counter (le le2 : Bool) (s k : Nat) :
    decodeHeader le2 (serverPacket le ((s : Int) * 1073741824 + k))
      = ((((s + k / 1073741824) % 4 : Nat) : Int), k % 1073741824) := by
  rw [decodeHeader_serverPacket, intToU_counter]
  refine Prod.ext ?_ ?_
  · simp only []; omega
  · simp only []; omega

/-- C1: for every sender id in [0,3] and every sequence number below 2^30,
the four bytes the sender writes for the counter value
`(senderId << 30) + sequence` (with `htonl`, on a host of either byte order)
are decoded by the receiver (`ntohl`, `>> 30`, `& 0x3fffffff`, on a host of
either byte order) to exactly `(senderId, sequence)`; and these four bytes are
the header of packet number `sequence` of the sender loop. -/
theorem header_round_trip (le le2 : Bool) (senderId sequence : Nat)
    (hs : senderId ≤ 3) (hq : sequence < 1073741824) :
    decodeHeader le2 (serverPacket le (iadd (ishl30 (senderId : Int)) (sequence : Int)))
        = ((senderId : Int), sequence)
      ∧ (serverRun le (senderId : Int) (sequence + 1)).bind (fun l => l[sequence]?)
        = some (serverPacket le (iadd (ishl30 (senderId : Int)) (sequence : Int))) := by
  refine ⟨?_, ?_⟩
  · rw [serverPacket_counter, decode_counter le le2 senderId sequence]
    refine Prod.ext ?_ ?_
    · simp only []; omega
    · simp only []; omega
  · rw [serverPacket_counter, serverRun_getElem le senderId sequence hs]

/-- C1 (witness): sender id 2, sequence 99, little-endian sender, big-endian receiver. -/
theorem header_round_trip_witness :
    (2 ≤ 3 ∧ 99 < 1073741824)
      ∧ decodeHeader false (serverPacket true (iadd (ishl30 ((2 : Nat) : Int)) ((99 : Nat) : Int)))
          = (((2 : Nat) : Int), 99)
      ∧ (serverRun true ((2 : Nat) : Int) (99 + 1)).bind (fun l => l[99]?)
          = some (serverPacket true (iadd (ishl30 ((2 : Nat) : Int)) ((99 : Nat) : Int))) :=
  ⟨⟨by decide, by decide⟩, header_round_trip true false 2 99 (by decide) (by decide)⟩

/-- C7 (amended): for every sender id `s` in [0,3] and every packet index
`k`, the header of packet number `k` of the sender loop decodes to sender id
`(s + k / 2^30) mod 4` and sequence `k mod 2^30`: the counter is one 32-bit
word, so the carry out of the low 30 bits goes into the sender id field.  For
`k < 2^30` this is `(s, k)`. -/
theorem header_of_packet (le le2 : Bool) (s k : Nat) (hs : s ≤ 3) :
    ((serverRun le (s : Int) (k + 1)).bind (fun l => l[k]?)).map (decodeHeader le2)
        = some ((((s + k / 1073741824) % 4 : Nat) : Int), k % 1073741824)
      ∧ (k < 1073741824 →
          ((serverRun le (s : Int) (k + 1)).bind (fun l => l[k]?)).map (decodeHeader le2)
            = some ((s : Int), k)) := by
  rw [serverRun_getElem le s k hs, Option.map_some', decode_counter le le2 s k]
  refine ⟨rfl, ?_⟩
  intro hk
  have e1 : (s + k / 1073741824) % 4 = s := by omega
  have e2 : k % 1073741824 = k := by omega
  rw [e1, e2]

/-- C7 (witness): sender id 2, packet number 5. -/
theorem header_of_packet_witness :
    (2 ≤ 3) ∧
    (((serverRun true ((2 : Nat) : Int) (5 + 1)).bind (fun l => l[5]?)).map (decodeHeader true)
        = some ((((2 + 5 / 1073741824) % 4 : Nat) : Int), 5 % 1073741824)
      ∧ (5 < 1073741824 →
          ((serverRun true ((2 : Nat) : Int) (5 + 1)).bind (fun l => l[5]?)).map (decodeHeader true)
            = some (((2 : Nat) : Int), 5))) :=
  ⟨by decide, header_of_packet true true 2 5 (by decide)⟩

/-- C7 (counterexample): packet number 2^30 of the sender started with id 0
decodes to sender id 1 and sequence 0, not to sender id 0. -/
theorem header_of_packet_counterexample :
    ((serverRun true ((0 : Nat) : Int) (1073741824 + 1)).bind
        (fun l => l[1073741824]?)).map (decodeHeader true) = some (1, 0)
      ∧ ((serverRun true ((0 : Nat) : Int) (1073741824 + 1)).bind
        (fun l => l[1073741824]?)).map (decodeHeader true)
          ≠ some (0, 1073741824 % 1073741824) := by
  rw [serverRun_getElem true 0 1073741824 (by decide), Option.map_some',
    decode_counter true true 0 1073741824]
  decide

/-! ## Loss accounting: one step -/

theorem getElem?_set_other (xs : List Int) (s t : Nat) (v : Int) (h : t ≠ s) :
    (xs.set s v)[t]? = xs[t]? := by
  rw [List.getElem?_set]
  rw [if_neg (fun e => h e.symm)]

theorem getElem?_set_same (xs : List Int) (s : Nat) (v : Int) (h : s < xs.length) :
    (xs.set s v)[s]? = some v := by
  rw [List.getElem?_set]
  simp [h]

/-- C2 (amended): for every state whose slots are in [0, 2^30-1] and whose
counters are `int` values, every sender id in [0,3] and every sequence number
in [0, 2^30-1] not below the slot of that sender, provided the two 32-bit
counters have room (totalReceived + 1 and totalLost + gap are at most
2^31-1), one pass of the accounting adds exactly 1 to totalReceived, sets the
slot of the sender to the sequence number, leaves the other slots alone, and
adds to totalLost the number of sequence numbers strictly between the slot
and the sequence number. -/
theorem observe_in_order (st : LossState) (hst : StateOk st) (senderId : Nat)
    (hs : senderId ≤ 3) (sequence : Nat) (hq : sequence < 1073741824) (last : Int)
    (hlast : readSlot st.last_p (senderId : Int) = some last)
    (hord : last ≤ (sequence : Int))
    (hroom1 : st.rcvd + 1 ≤ 2147483647)
    (hroom2 : st.lost + (if (sequence : Int) - last > 1 then (sequence : Int) - last - 1 else 0)
      ≤ 2147483647) :
    ∃ st1, observe st (senderId : Int) sequence = some st1
      ∧ st1.rcvd = st.rcvd + 1
      ∧ readSlot st1.last_p (senderId : Int) = some (sequence : Int)
      ∧ st1.lost
          = st.lost + (if (sequence : Int) - last > 1 then (sequence : Int) - last - 1 else 0)
      ∧ ∀ t : Nat, t ≠ senderId → readSlot st1.last_p (t : Int) = readSlot st.last_p (t : Int) := by
  obtain ⟨last1, hget, h0, h1, heq⟩ := observe_eq st hst senderId hs sequence hq
  rw [readSlot_nat, hget] at hlast
  injection hlast with hlast
  subst hlast
  obtain ⟨_, ⟨hr0, hr1⟩, ⟨hl0, hl1⟩⟩ := hst
  refine ⟨_, heq, ?_, ?_, ?_, ?_⟩
  · simp only []
    unfold wrapInt32; omega
  · rw [readSlot_nat]
    apply getElem?_set_same
    have := ‹SlotsOk st.last_p›.1
    omega
  · simp only []
    unfold gapDelta wrapInt32
    split_ifs at hroom2 ⊢ <;> omega
  · intro t ht
    simp only [readSlot_nat]
    exact getElem?_set_other _ _ _ _ ht

/-- C2 (witness): state with slot 0 equal to 1, packet (0, 3): one number is missing. -/
theorem observe_in_order_witness :
    ∃ st1, observe ⟨2, 0, [1, 0, 0, 0]⟩ ((0 : Nat) : Int) 3 = some st1
      ∧ st1.rcvd = 2 + 1
      ∧ readSlot st1.last_p ((0 : Nat) : Int) = some ((3 : Nat) : Int)
      ∧ st1.lost = 0 + (if ((3 : Nat) : Int) - 1 > 1 then ((3 : Nat) : Int) - 1 - 1 else 0)
      ∧ ∀ t : Nat, t ≠ 0 →
          readSlot st1.last_p (t : Int) = readSlot ([1, 0, 0, 0] : List Int) (t : Int) :=
  observe_in_order ⟨2, 0, [1, 0, 0, 0]⟩
    ⟨⟨rfl, by decide⟩, by decide, by decide⟩ 0 (by decide) 3 (by decide) 1 (by decide)
    (by decide) (by decide) (by decide)

/-- C2 (counterexample): after the two packets (0, 2^30-1) and (1, 2^30-1)
the loss count is 2^31-4; the in-order packet (2, 5) has four sequence
numbers missing before it, and the loss count becomes -2^31 instead of
2^31. -/
theorem observe_in_order_counterexample :
    observeAll initState [(0, 1073741823), (1, 1073741823)]
        = some ⟨2, 2147483644, [1073741823, 1073741823, 0, 0]⟩
      ∧ readSlot [1073741823, 1073741823, 0, 0] 2 = some 0
      ∧ observe ⟨2, 2147483644, [1073741823, 1073741823, 0, 0]⟩ 2 5
        = some ⟨3, -2147483648, [1073741823, 1073741823, 5, 0]⟩
      ∧ (-2147483648 : Int) ≠ 2147483644 + (5 - 0 - 1) := by
  decide

/-! ## Loss accounting: monotonicity -/

/-- C6 (amended): for every reachable state, every sender id in [0,3] and
every sequence number in [0, 2^30-1] the step succeeds and: if the sequence
number is not below the slot and the added gap does not overflow the 32-bit
counter, totalLost does not decrease; if it equals the slot, totalLost is
unchanged; if it is below the slot, the step adds the negative number
`sequence - last - 1` (modulo 2^32), so that totalLost is reduced by
`last - sequence + 1` unless that underflows the counter. -/
theorem lost_change (st : LossState) (hst : Reachable st) (senderId : Nat)
    (hs : senderId ≤ 3) (sequence : Nat) (hq : sequence < 1073741824) :
    ∃ last st1, readSlot st.last_p (senderId : Int) = some last
      ∧ observe st (senderId : Int) sequence = some st1
      ∧ (last ≤ (sequence : Int) → st.lost + gapDelta last sequence ≤ 2147483647 →
          st.lost ≤ st1.lost)
      ∧ ((sequence : Int) = last → st1.lost = st.lost)
      ∧ ((sequence : Int) < last →
          st1.lost = wrapInt32 (st.lost - (last - (sequence : Int) + 1)))
      ∧ ((sequence : Int) < last → -2147483648 ≤ st.lost - (last - (sequence : Int) + 1) →
          st1.lost = st.lost - (last - (sequence : Int) + 1) ∧ st1.lost < st.lost) := by
  have hok := reachable_ok st hst
  obtain ⟨last, hget, h0, h1, heq⟩ := observe_eq st hok senderId hs sequence hq
  obtain ⟨_, _, ⟨hl0, hl1⟩⟩ := hok
  refine ⟨last, _, by rw [readSlot_nat, hget], heq, ?_, ?_, ?_, ?_⟩
  · intro hord hroom
    simp only []
    unfold gapDelta wrapInt32 at *
    split_ifs at hroom ⊢ <;> omega
  · intro he
    simp only []
    unfold gapDelta wrapInt32
    split_ifs <;> omega
  · intro hlt
    simp only []
    unfold gapDelta
    rw [if_neg (by omega)]
    congr 1; ring
  · intro hlt hroom
    simp only []
    unfold gapDelta wrapInt32
    split_ifs <;> omega

/-- C6 (witness): the initial state and the packet (1, 7). -/
theorem lost_change_witness :
    ∃ last st1, readSlot initState.last_p ((1 : Nat) : Int) = some last
      ∧ observe initState ((1 : Nat) : Int) 7 = some st1
      ∧ (last ≤ ((7 : Nat) : Int) → initState.lost + gapDelta last 7 ≤ 2147483647 →
          initState.lost ≤ st1.lost)
      ∧ (((7 : Nat) : Int) = last → st1.lost = initState.lost)
      ∧ (((7 : Nat) : Int) < last →
          st1.lost = wrapInt32 (initState.lost - (last - ((7 : Nat) : Int) + 1)))
      ∧ (((7 : Nat) : Int) < last →
          -2147483648 ≤ initState.lost - (last - ((7 : Nat) : Int) + 1) →
          st1.lost = initState.lost - (last - ((7 : Nat) : Int) + 1)
            ∧ st1.lost < initState.lost) :=
  lost_change initState ⟨true, [], rfl⟩ 1 (by decide) 7 (by decide)

/-- C6 (counterexample): the state after the single packet (0, 5) is
reachable and has totalLost = 4; observing the out-of-order packet (0, 3)
there gives totalLost = 1. -/
theorem lost_change_counterexample :
    clientRun true initState [⟨0, 0, 0, 5⟩] = some ⟨1, 4, [5, 0, 0, 0]⟩
      ∧ observe ⟨1, 4, [5, 0, 0, 0]⟩ 0 3 = some ⟨2, 1, [3, 0, 0, 0]⟩
      ∧ ¬ ((4 : Int) ≤ 1) := by
  decide

/-! ## Safety of the table accesses -/

/-- C10: every four bytes decode to a sender id in [0,3] and a sequence number
in [0, 2^30-1]; hence the receive loop, run from the initial state on any
list of received headers, never indexes outside the four slots (the run
returns a state), every slot of that state is in [0, 2^30-1], and on the next
iteration, whatever header arrives, the slot read is non-negative, so the
guard `last_p[server_id] >= 0` holds and the step is made. -/
theorem header_index_safe (le : Bool) (bufs : List Word4) :
    ∃ st, clientRun le initState bufs = some st
      ∧ st.last_p.length = MAX_SERVER_IDS
      ∧ (∀ x ∈ st.last_p, 0 ≤ x ∧ x ≤ 1073741823)
      ∧ ∀ w : Word4,
          0 ≤ (decodeHeader le w).1 ∧ (decodeHeader le w).1 ≤ 3
            ∧ (decodeHeader le w).2 ≤ 1073741823
            ∧ (∃ last, readSlot st.last_p (decodeHeader le w).1 = some last ∧ last ≥ 0)
            ∧ (clientStep le st w).isSome = true := by
  obtain ⟨st, hrun, hok⟩ := clientRun_ok le bufs
  refine ⟨st, hrun, hok.1.1, ?_, ?_⟩
  · intro x hx
    have := hok.1.2 x hx
    omega
  · intro w
    obtain ⟨s, hs, h1, h2⟩ := decodeHeader_range le w
    obtain ⟨last, hget, h0, _, heq⟩ := observe_eq st hok s hs _ h2
    refine ⟨by omega, by omega, by omega, ⟨last, ?_, h0⟩, ?_⟩
    · rw [h1, readSlot_nat, hget]
    · unfold clientStep
      rw [h1, heq]; rfl

/-! ## Loss accounting: an in-order stream of one sender -/

theorem chain_le_last (qs : List Nat) :
    ∀ a : Nat, List.Chain (· < ·) a qs →
      a ≤ qs.getLastD a ∧ ∀ q ∈ qs, q ≤ qs.getLastD a := by
  induction qs with
  | nil => intro a _; exact ⟨le_refl _, fun q hq => absurd hq (List.not_mem_nil q)⟩
  | cons q rest ih =>
    intro a hc
    rw [List.chain_cons] at hc
    obtain ⟨h1, h2⟩ := ih q hc.2
    rw [List.getLastD_cons]
    refine ⟨by omega, ?_⟩
    intro x hx
    rcases List.mem_cons.mp hx with hx | hx
    · rw [hx]; exact h1
    · exact h2 x hx

/-- A strictly increasing continuation of the stream of sender `s`, from a
state whose counters have room. -/
theorem observeAll_chain (s : Nat) (hs : s ≤ 3) (qs : List Nat) :
    ∀ (a : Nat) (st : LossState), StateOk st → st.last_p[s]? = some (a : Int) →
      List.Chain (· < ·) a qs → (∀ q ∈ qs, q < 1073741824) →
      0 ≤ st.rcvd → st.rcvd + (1073741823 - (a : Int)) ≤ 2147483647 →
      0 ≤ st.lost → st.lost + (1073741823 - (a : Int)) ≤ 2147483647 →
      ∃ st1, observeAll st (tagged (s : Int) qs) = some st1
        ∧ st1.rcvd = st.rcvd + qs.length
        ∧ st1.last_p[s]? = some ((qs.getLastD a : Nat) : Int)
        ∧ (∀ t : Nat, t ≠ s → st1.last_p[t]? = st.last_p[t]?)
        ∧ st1.lost = st.lost + ((qs.getLastD a : Nat) : Int) - a - qs.length := by
  induction qs with
  | nil =>
    intro a st _ hget _ _ _ _ _ _
    refine ⟨st, rfl, by simp, by simpa using hget, fun _ _ => rfl, by simp⟩
  | cons q rest ih =>
    intro a st hst hget hc hb hr0 hr1 hl0 hl1
    rw [List.chain_cons] at hc
    have hq : q < 1073741824 := hb q (List.mem_cons_self _ _)
    obtain ⟨last, hget1, _, _, heq⟩ := observe_eq st hst s hs q hq
    rw [hget] at hget1
    injection hget1 with hget1
    subst hget1
    have hok := observe_ok st hst s hs q hq _ heq
    have hlen : s < st.last_p.length := by rw [hst.1.1]; omega
    have hgap : gapDelta (a : Int) q = (q : Int) - a - 1 := by
      unfold gapDelta
      split_ifs <;> omega
    have hrc : wrapInt32 (st.rcvd + 1) = st.rcvd + 1 := by
      apply wrapInt32_of_range <;> omega
    have hlo : wrapInt32 (st.lost + gapDelta (a : Int) q) = st.lost + ((q : Int) - a - 1) := by
      rw [hgap]
      apply wrapInt32_of_range <;> omega
    obtain ⟨st1, h1, h2, h3, h4, h5⟩ := ih q _ hok
      (getElem?_set_same _ _ _ hlen) hc.2
      (fun x hx => hb x (List.mem_cons_of_mem _ hx))
      (by simp only [hrc]; omega) (by simp only [hrc]; omega)
      (by simp only [hlo]; omega) (by simp only [hlo]; omega)
    refine ⟨st1, ?_, ?_, ?_, ?_, ?_⟩
    · simp only [tagged, List.map_cons, observeAll, heq, Option.some_bind]
      exact h1
    · rw [h2]
      simp only [hrc, List.length_cons]
      push_cast; ring
    · rw [List.getLastD_cons]; exact h3
    · intro t ht
      rw [h4 t ht]
      exact getElem?_set_other _ _ _ _ ht
    · rw [h5, List.getLastD_cons]
      simp only [hlo, List.length_cons]
      push_cast; ring

theorem missing_count (qs : List Nat) (qn : Nat) (hnd : qs.Nodup)
    (hle : ∀ q ∈ qs, q ≤ qn) :
    ((Finset.range (qn + 1)).filter (fun x => x ∉ qs)).card = qn + 1 - qs.length := by
  have e : (Finset.range (qn + 1)).filter (fun x => x ∉ qs)
      = Finset.range (qn + 1) \ qs.toFinset := by
    ext x
    simp [Finset.mem_sdiff]
  have hsub : qs.toFinset ⊆ Finset.range (qn + 1) := by
    intro x hx
    have := hle x (List.mem_toFinset.mp hx)
    exact Finset.mem_range.mpr (by omega)
  rw [e, Finset.card_sdiff hsub, Finset.card_range, List.toFinset_card_of_nodup hnd]

theorem observeAll_stream (s : Nat) (hs : s ≤ 3)
    (qs : List Nat) (hhead : qs.head? = some 0) (hinc : qs.Chain' (· < ·))
    (hb : ∀ q ∈ qs, q < 1073741824) :
    ∃ st qn, qs.getLast? = some qn
      ∧ observeAll initState (tagged (s : Int) qs) = some st
      ∧ st.rcvd = qs.length
      ∧ readSlot st.last_p (s : Int) = some (qn : Int)
      ∧ (∀ t : Nat, t ≠ s → t ≤ 3 → readSlot st.last_p (t : Int) = some 0)
      ∧ st.lost = (qn : Int) + 1 - qs.length
      ∧ st.lost = (((Finset.range (qn + 1)).filter (fun x => x ∉ qs)).card : Int) := by
  cases qs with
  | nil => simp at hhead
  | cons q0 rest =>
    simp only [List.head?_cons, Option.some.injEq] at hhead
    subst hhead
    have hc : List.Chain (· < ·) 0 rest := hinc
    have hq0 : (0 : Nat) < 1073741824 := by decide
    obtain ⟨last, hget, _, _, heq⟩ := observe_eq initState stateOk_init s hs 0 hq0
    have hok := observe_ok initState stateOk_init s hs 0 hq0 _ heq
    have hlast : last = 0 := by
      have h4 : s = 0 ∨ s = 1 ∨ s = 2 ∨ s = 3 := by omega
      rcases h4 with h | h | h | h <;> subst h <;> simp [initState] at hget <;> omega
    subst hlast
    have hlen : s < initState.last_p.length := by simp [initState]; omega
    obtain ⟨st1, h1, h2, h3, h4, h5⟩ := observeAll_chain s hs rest 0 _ hok
      (getElem?_set_same _ _ _ hlen) hc (fun x hx => hb x (List.mem_cons_of_mem _ hx))
      (show (0 : Int) ≤ wrapInt32 (initState.rcvd + 1) by decide)
      (show wrapInt32 (initState.rcvd + 1) + (1073741823 - ((0 : Nat) : Int)) ≤ 2147483647
        by decide)
      (show (0 : Int) ≤ wrapInt32 (initState.lost + gapDelta ((0 : Nat) : Int) 0) by decide)
      (show wrapInt32 (initState.lost + gapDelta ((0 : Nat) : Int) 0)
        + (1073741823 - ((0 : Nat) : Int)) ≤ 2147483647 by decide)
    obtain ⟨hl1, hl2⟩ := chain_le_last rest 0 hc
    have hlost : st1.lost = ((rest.getLastD 0 : Nat) : Int) + 1 - ((0 :: rest).length : Nat) := by
      rw [h5]
      have : wrapInt32 (initState.lost + gapDelta 0 0) = 0 := by decide
      simp only [this, List.length_cons]
      push_cast; ring
    have hnd : (0 :: rest).Nodup :=
      (List.chain'_iff_pairwise.mp hinc).imp (fun h => Nat.ne_of_lt h)
    have hle : ∀ q ∈ (0 :: rest), q ≤ rest.getLastD 0 := by
      intro q hq
      rcases List.mem_cons.mp hq with hq | hq
      · omega
      · exact hl2 q hq
    have hcount := missing_count (0 :: rest) (rest.getLastD 0) hnd hle
    have hlenle : (0 :: rest).length ≤ rest.getLastD 0 + 1 := by
      have := List.toFinset_card_of_nodup hnd
      have h2 : (0 :: rest).toFinset ⊆ Finset.range (rest.getLastD 0 + 1) := by
        intro x hx
        have := hle x (List.mem_toFinset.mp hx)
        exact Finset.mem_range.mpr (by omega)
      have := Finset.card_le_card h2
      rw [Finset.card_range] at this
      omega
    refine ⟨st1, rest.getLastD 0, ?_, ?_, ?_, ?_, ?_, hlost, ?_⟩
    · rw [List.getLast?_cons, List.getLastD_eq_getLast?]
    · simp only [tagged, List.map_cons, observeAll, heq, Option.some_bind]
      exact h1
    · rw [h2]
      have : wrapInt32 (initState.rcvd + 1) = 1 := by decide
      simp only [this, List.length_cons]
      push_cast; ring
    · rw [readSlot_nat]; exact h3
    · intro t ht ht3
      rw [readSlot_nat, h4 t ht, getElem?_set_other _ _ _ _ ht]
      have h4 : t = 0 ∨ t = 1 ∨ t = 2 ∨ t = 3 := by omega
      rcases h4 with h | h | h | h <;> subst h <;> rfl
    · rw [hlost, hcount]
      omega

/-- C3: for every sender id in [0,3] and every strictly increasing list
q_1 < ... < q_n of sequence numbers with q_1 = 0 and q_n < 2^30, fed for that
sender to the initial state, the run ends with totalReceived = n, the slot of
the sender equal to q_n, the other slots 0, and totalLost = q_n + 1 - n, which
is the number of sequence numbers of [0, q_n] missing from the list.  In
particular 0, 1, ..., N-1 gives totalReceived = N and totalLost = 0, and
0, 1, 3 gives totalReceived = 3, totalLost = 1 and slot 3. -/
theorem in_order_stream (s : Nat) (hs : s ≤ 3) :
    (∀ qs : List Nat, qs.head? = some 0 → qs.Chain' (· < ·) →
      (∀ q ∈ qs, q < 1073741824) →
      ∃ st qn, qs.getLast? = some qn
        ∧ observeAll initState (tagged (s : Int) qs) = some st
        ∧ st.rcvd = qs.length
        ∧ readSlot st.last_p (s : Int) = some (qn : Int)
        ∧ (∀ t : Nat, t ≠ s → t ≤ 3 → readSlot st.last_p (t : Int) = some 0)
        ∧ st.lost = (qn : Int) + 1 - qs.length
        ∧ st.lost = (((Finset.range (qn + 1)).filter (fun x => x ∉ qs)).card : Int))
    ∧ (∀ N : Nat, 1 ≤ N → N ≤ 1073741824 →
        ∃ st, observeAll initState (tagged (s : Int) (List.range N)) = some st
          ∧ st.rcvd = N ∧ st.lost = 0)
    ∧ (∃ st, observeAll initState (tagged (s : Int) [0, 1, 3]) = some st
          ∧ st.rcvd = 3 ∧ st.lost = 1 ∧ readSlot st.last_p (s : Int) = some 3) := by
  refine ⟨fun qs h1 h2 h3 => observeAll_stream s hs qs h1 h2 h3, ?_, ?_⟩
  · intro N hN1 hN2
    obtain ⟨n, rfl⟩ : ∃ n, N = n + 1 := ⟨N - 1, by omega⟩
    obtain ⟨st, qn, hlast, hrun, hr, _, _, hl, _⟩ := observeAll_stream s hs (List.range (n + 1))
      (by rw [List.head?_range]; simp)
      (by rw [List.chain'_range_succ]; intro m _; exact Nat.lt_succ_self m)
      (by intro q hq; have := List.mem_range.mp hq; omega)
    rw [List.getLast?_range] at hlast
    simp only [Nat.add_one_ne_zero, if_false, Option.some.injEq] at hlast
    refine ⟨st, hrun, ?_, ?_⟩
    · rw [hr, List.length_range]
    · rw [hl, List.length_range, ← hlast]
      push_cast; omega
  · obtain ⟨st, qn, hlast, hrun, hr, hslot, _, hl, _⟩ := observeAll_stream s hs [0, 1, 3]
      rfl (by simp) (by decide)
    have hqn : qn = 3 := by
      simp at hlast
      exact hlast.symm
    subst hqn
    refine ⟨st, hrun, ?_, ?_, hslot⟩
    · rw [hr]; rfl
    · rw [hl]; rfl

/-- C3 (witness): the stream 0, 2, 3, 7 of sender 1. -/
theorem in_order_stream_witness :
    ∃ st qn, ([0, 2, 3, 7] : List Nat).getLast? = some qn
        ∧ observeAll initState (tagged ((1 : Nat) : Int) [0, 2, 3, 7]) = some st
        ∧ st.rcvd = ([0, 2, 3, 7] : List Nat).length
        ∧ readSlot st.last_p ((1 : Nat) : Int) = some (qn : Int)
        ∧ (∀ t : Nat, t ≠ 1 → t ≤ 3 → readSlot st.last_p (t : Int) = some 0)
        ∧ st.lost = (qn : Int) + 1 - ([0, 2, 3, 7] : List Nat).length
        ∧ st.lost
          = (((Finset.range (qn + 1)).filter (fun x => x ∉ ([0, 2, 3, 7] : List Nat))).card : Int) :=
  (in_order_stream 1 (by decide)).1 [0, 2, 3, 7] rfl (by simp) (by decide)

/-! ## End to end -/

theorem serverLoop_length (le : Bool) (n : Nat) : ∀ nr, (serverLoop le nr n).length = n := by
  induction n with
  | zero => intro nr; rfl
  | succ n ih => intro nr; simp [serverLoop, ih]

/-- The first `N ≤ 2^30` headers of sender `s` decode to `(s,0), ..., (s,N-1)`. -/
theorem decode_serverLoop (le le2 : Bool) (s N : Nat) (hs : s ≤ 3) (hN : N ≤ 1073741824) :
    (serverLoop le (ishl30 (s : Int)) N).map (decodeHeader le2)
      = tagged (s : Int) (List.range N) := by
  apply List.ext_getElem?
  intro k
  by_cases hk : k < N
  · rw [List.getElem?_map, serverLoop_getElem le N _ k hk]
    have e : serverPacket le (ishl30 (s : Int) + (k : Int))
        = serverPacket le ((s : Int) * 1073741824 + k) := by
      simp only [serverPacket, ishl30, intToU_wrapInt32_add]
    rw [e, Option.map_some', decode_counter]
    have e1 : (s + k / 1073741824) % 4 = s := by omega
    have e2 : k % 1073741824 = k := by omega
    simp only [tagged, List.getElem?_map, List.getElem?_range hk, Option.map_some', e1, e2]
  · have h1 : ((serverLoop le (ishl30 (s : Int)) N).map (decodeHeader le2))[k]? = none := by
      apply List.getElem?_eq_none
      simp [serverLoop_length]; omega
    have h2 : (tagged (s : Int) (List.range N))[k]? = none := by
      apply List.getElem?_eq_none
      simp [tagged]; omega
    rw [h1, h2]

/-- C5: for every sender id `s` in [0,3] and every `N` with 1 ≤ N ≤ 2^30,
the sender loop started with id `s` produces `N` headers, and the receive
loop run from the initial state on these headers, in order and without loss
(sender and receiver of either byte order), ends with totalReceived = N,
totalLost = 0, slot `s` equal to N-1 and every other slot 0. -/
theorem end_to_end (le le2 : Bool) (s N : Nat) (hs : s ≤ 3) (h1 : 1 ≤ N)
    (h2 : N ≤ 1073741824) :
    ∃ sent st, serverRun le (s : Int) N = some sent ∧ sent.length = N
      ∧ clientRun le2 initState sent = some st
      ∧ st.rcvd = N ∧ st.lost = 0
      ∧ readSlot st.last_p (s : Int) = some ((N : Int) - 1)
      ∧ ∀ t : Nat, t ≠ s → t ≤ 3 → readSlot st.last_p (t : Int) = some 0 := by
  have hinit : serverInit (s : Int) = some (ishl30 s) := by
    unfold serverInit
    rw [if_neg]; omega
  obtain ⟨n, rfl⟩ : ∃ n, N = n + 1 := ⟨N - 1, by omega⟩
  obtain ⟨st, qn, hlast, hrun, hr, hslot, hoth, hl, _⟩ :=
    observeAll_stream s hs (List.range (n + 1))
      (by rw [List.head?_range]; simp)
      (by rw [List.chain'_range_succ]; intro m _; exact Nat.lt_succ_self m)
      (by intro q hq; have := List.mem_range.mp hq; omega)
  rw [List.getLast?_range] at hlast
  simp only [Nat.add_one_ne_zero, if_false, Option.some.injEq] at hlast
  refine ⟨serverLoop le (ishl30 s) (n + 1), st, ?_, serverLoop_length _ _ _, ?_, ?_, ?_, ?_, hoth⟩
  · simp only [serverRun, hinit, Option.map_some']
  · rw [clientRun_eq_observeAll, decode_serverLoop le le2 s (n + 1) hs h2]
    exact hrun
  · rw [hr, List.length_range]
  · rw [hl, List.length_range, ← hlast]
    push_cast; omega
  · rw [hslot, ← hlast]
    congr 1
    push_cast; omega

/-- C5 (witness): sender id 2 and 100 packets. -/
theorem end_to_end_witness :
    ∃ sent st, serverRun true ((2 : Nat) : Int) 100 = some sent ∧ sent.length = 100
      ∧ clientRun true initState sent = some st
      ∧ st.rcvd = (100 : Nat) ∧ st.lost = 0
      ∧ readSlot st.last_p ((2 : Nat) : Int) = some (((100 : Nat) : Int) - 1)
      ∧ ∀ t : Nat, t ≠ 2 → t ≤ 3 → readSlot st.last_p (t : Int) = some 0 :=
  end_to_end true true 2 100 (by decide) (by decide) (by decide)

/-! ## Isolation of the senders -/

theorem wrapInt32_rel (la lb d : Int) :
    wrapInt32 (wrapInt32 (la + lb) + d) = wrapInt32 (wrapInt32 (la + d) + lb)
      ∧ wrapInt32 (wrapInt32 (la + lb) + d) = wrapInt32 (la + wrapInt32 (lb + d)) := by
  unfold wrapInt32; omega

/-- The combined run and the two separate runs stay related: same slots for
senders 0 and 1, and a loss count equal to the 32-bit sum. -/
theorem interleaving_runs (as bs : List Nat) (cs : List (Int × Nat))
    (h : Interleaving as bs cs) :
    (∀ q ∈ as, q < 1073741824) → (∀ q ∈ bs, q < 1073741824) →
    ∀ (st sa sb : LossState) (a b : Int), StateOk st → StateOk sa → StateOk sb →
      st.last_p = [a, b, 0, 0] → sa.last_p = [a, 0, 0, 0] → sb.last_p = [0, b, 0, 0] →
      st.lost = wrapInt32 (sa.lost + sb.lost) →
      ∃ st1 sa1 sb1 a1 b1, observeAll st cs = some st1
        ∧ observeAll sa (tagged 0 as) = some sa1
        ∧ observeAll sb (tagged 1 bs) = some sb1
        ∧ st1.last_p = [a1, b1, 0, 0] ∧ sa1.last_p = [a1, 0, 0, 0]
        ∧ sb1.last_p = [0, b1, 0, 0]
        ∧ st1.lost = wrapInt32 (sa1.lost + sb1.lost) := by
  induction h with
  | nil =>
    intro _ _ st sa sb a b _ _ _ h1 h2 h3 h4
    exact ⟨st, sa, sb, a, b, rfl, rfl, rfl, h1, h2, h3, h4⟩
  | @left q as bs cs _ ih =>
    intro has hbs st sa sb a b hst hsa hsb h1 h2 h3 h4
    have hq : q < 1073741824 := has q (List.mem_cons_self _ _)
    obtain ⟨l1, hg1, _, _, e1⟩ := observe_eq st hst 0 (by decide) q hq
    obtain ⟨l2, hg2, _, _, e2⟩ := observe_eq sa hsa 0 (by decide) q hq
    have ok1 := observe_ok st hst 0 (by decide) q hq _ e1
    have ok2 := observe_ok sa hsa 0 (by decide) q hq _ e2
    rw [h1] at hg1
    rw [h2] at hg2
    simp only [List.getElem?_cons_zero, Option.some.injEq] at hg1 hg2
    subst hg1
    subst hg2
    simp only [Nat.cast_zero] at e1 e2
    obtain ⟨st1, sa1, sb1, a1, b1, r1, r2, r3, r4, r5, r6, r7⟩ :=
      ih (fun x hx => has x (List.mem_cons_of_mem _ hx)) hbs _ _ sb (q : Int) b ok1 ok2 hsb
        (by simp only [h1, List.set_cons_zero]) (by simp only [h2, List.set_cons_zero]) h3
        (by simp only [h4]; exact (wrapInt32_rel _ _ _).1)
    refine ⟨st1, sa1, sb1, a1, b1, ?_, ?_, r3, r4, r5, r6, r7⟩
    · simp only [observeAll, e1, Option.some_bind]; exact r1
    · simp only [tagged, List.map_cons, observeAll, e2, Option.some_bind]; exact r2
  | @right q as bs cs _ ih =>
    intro has hbs st sa sb a b hst hsa hsb h1 h2 h3 h4
    have hq : q < 1073741824 := hbs q (List.mem_cons_self _ _)
    obtain ⟨l1, hg1, _, _, e1⟩ := observe_eq st hst 1 (by decide) q hq
    obtain ⟨l2, hg2, _, _, e2⟩ := observe_eq sb hsb 1 (by decide) q hq
    have ok1 := observe_ok st hst 1 (by decide) q hq _ e1
    have ok2 := observe_ok sb hsb 1 (by decide) q hq _ e2
    rw [h1] at hg1
    rw [h3] at hg2
    simp only [List.getElem?_cons_succ, List.getElem?_cons_zero, Option.some.injEq] at hg1 hg2
    subst hg1
    subst hg2
    simp only [Nat.cast_one] at e1 e2
    obtain ⟨st1, sa1, sb1, a1, b1, r1, r2, r3, r4, r5, r6, r7⟩ :=
      ih has (fun x hx => hbs x (List.mem_cons_of_mem _ hx)) _ sa _ a (q : Int) ok1 hsa ok2
        (by simp only [h1, List.set_cons_succ, List.set_cons_zero]) h2
        (by simp only [h3, List.set_cons_succ, List.set_cons_zero])
        (by simp only [h4]; exact (wrapInt32_rel _ _ _).2)
    refine ⟨st1, sa1, sb1, a1, b1, ?_, r2, ?_, r4, r5, r6, r7⟩
    · simp only [observeAll, e1, Option.some_bind]; exact r1
    · simp only [tagged, List.map_cons, observeAll, e2, Option.some_bind]; exact r3

theorem interleaving_length (as bs : List Nat) (cs : List (Int × Nat))
    (h : Interleaving as bs cs) : cs.length = as.length + bs.length := by
  induction h with
  | nil => rfl
  | left q _ ih => simp only [List.length_cons, ih]; omega
  | right q _ ih => simp only [List.length_cons, ih]; omega

/-- The loss count of the run of one sender lies between minus the number of
packets and the slot, as long as fewer than 2^31 packets are received. -/
theorem single_run_bounds (s : Nat) (hs : s ≤ 3) (qs : List Nat) :
    ∀ (st : LossState) (k last : Int), StateOk st → st.last_p[s]? = some last →
      0 ≤ k → -k ≤ st.lost - last → st.lost - last ≤ 0 →
      k + qs.length ≤ 2147483647 → (∀ q ∈ qs, q < 1073741824) →
      ∃ st1, observeAll st (tagged (s : Int) qs) = some st1
        ∧ -(k + qs.length) ≤ st1.lost ∧ st1.lost ≤ 1073741823 := by
  induction qs with
  | nil =>
    intro st k last hst hget hk h1 h2 _ _
    have := (slot_bounds st.last_p hst.1 s hs)
    obtain ⟨l, hl, hl0, hl1⟩ := this
    rw [hget] at hl
    injection hl with hl
    subst hl
    refine ⟨st, rfl, ?_, ?_⟩
    · simp only [List.length_nil]; push_cast; omega
    · omega
  | cons q rest ih =>
    intro st k last hst hget hk h1 h2 hlen hb
    have hq : q < 1073741824 := hb q (List.mem_cons_self _ _)
    obtain ⟨l, hg, hl0, hl1, e⟩ := observe_eq st hst s hs q hq
    rw [hget] at hg
    injection hg with hg
    subst hg
    have ok := observe_ok st hst s hs q hq _ e
    have hlen2 : s < st.last_p.length := by rw [hst.1.1]; omega
    simp only [List.length_cons] at hlen
    push_cast at hlen
    have hw : wrapInt32 (st.lost + gapDelta last q) = st.lost + gapDelta last q := by
      apply wrapInt32_of_range
      · unfold gapDelta; split_ifs <;> omega
      · unfold gapDelta; split_ifs <;> omega
    obtain ⟨st1, r1, r2, r3⟩ := ih _ (k + 1) (q : Int) ok (getElem?_set_same _ _ _ hlen2)
      (by omega)
      (by simp only [hw]; unfold gapDelta; split_ifs <;> omega)
      (by simp only [hw]; unfold gapDelta; split_ifs <;> omega)
      (by omega) (fun x hx => hb x (List.mem_cons_of_mem _ hx))
    refine ⟨st1, ?_, ?_, r3⟩
    · simp only [tagged, List.map_cons, observeAll, e, Option.some_bind]; exact r1
    · simp only [List.length_cons]; push_cast; omega

/-- C4: for every two streams of sequence numbers in [0, 2^30-1] sent by
senders 0 and 1 and every interleaving of them fed to the initial state (a
run of at most 2^31-1 packets, the runs on which `++rcvd` stays an `int`),
the run returns a state whose slots of senders 0 and 1 are those obtained by
feeding each stream alone to the initial state, whose slots of senders 2 and
3 are 0, and whose totalLost is the sum of the two totalLost values obtained
by feeding each stream alone. -/
theorem sender_isolation (as bs : List Nat) (cs : List (Int × Nat))
    (ha : ∀ q ∈ as, q < 1073741824) (hb : ∀ q ∈ bs, q < 1073741824)
    (h : Interleaving as bs cs) (hlen : cs.length ≤ 2147483647) :
    ∃ st sa sb a b, observeAll initState cs = some st
      ∧ observeAll initState (tagged 0 as) = some sa
      ∧ observeAll initState (tagged 1 bs) = some sb
      ∧ st.last_p = [a, b, 0, 0] ∧ sa.last_p = [a, 0, 0, 0] ∧ sb.last_p = [0, b, 0, 0]
      ∧ st.lost = sa.lost + sb.lost := by
  obtain ⟨st, sa, sb, a, b, r1, r2, r3, r4, r5, r6, r7⟩ :=
    interleaving_runs as bs cs h ha hb initState initState initState 0 0
      stateOk_init stateOk_init stateOk_init rfl rfl rfl (by decide)
  refine ⟨st, sa, sb, a, b, r1, r2, r3, r4, r5, r6, ?_⟩
  rw [interleaving_length as bs cs h] at hlen
  obtain ⟨sa1, e1, b1, b2⟩ := single_run_bounds 0 (by decide) as initState 0 0 stateOk_init
    rfl (by decide) (by decide) (by decide) (by omega) ha
  obtain ⟨sb1, e2, b3, b4⟩ := single_run_bounds 1 (by decide) bs initState 0 0 stateOk_init
    rfl (by decide) (by decide) (by decide) (by omega) hb
  simp only [Nat.cast_zero, Nat.cast_one] at e1 e2
  rw [r2] at e1
  rw [r3] at e2
  injection e1 with e1
  injection e2 with e2
  subst e1
  subst e2
  rw [r7]
  apply wrapInt32_of_range <;> omega

/-- C4 (witness): streams 0, 2 of sender 0 and 4, 5 of sender 1, alternating. -/
theorem sender_isolation_witness :
    ∃ st sa sb a b, observeAll initState [(0, 0), (1, 4), (0, 2), (1, 5)] = some st
      ∧ observeAll initState (tagged 0 [0, 2]) = some sa
      ∧ observeAll initState (tagged 1 [4, 5]) = some sb
      ∧ st.last_p = [a, b, 0, 0] ∧ sa.last_p = [a, 0, 0, 0] ∧ sb.last_p = [0, b, 0, 0]
      ∧ st.lost = sa.lost + sb.lost :=
  sender_isolation [0, 2] [4, 5] [(0, 0), (1, 4), (0, 2), (1, 5)] (by decide) (by decide)
    (Interleaving.left 0 (Interleaving.right 4 (Interleaving.left 2
      (Interleaving.right 5 Interleaving.nil)))) (by decide)

/-! ## mcast_send_socket: resources on failure -/

/-- On every failure `mcast_send_socket` returns -1; the socket is never
closed (it is open at return exactly when it had been opened); the resolved
address has been freed except on the unknown-family path. -/
theorem send_failure_resources (o : SendCalls) (h : o.stepFails) :
    (mcast_send_socket o).1 = -1
      ∧ ((mcast_send_socket o).2.sockOpen = true ↔ (o.resolved ≠ none ∧ 0 ≤ o.socketRet))
      ∧ (¬ (o.resolved = some Family.other ∧ 0 ≤ o.socketRet ∧ o.ttlOk = true) →
          (mcast_send_socket o).2.addrAllocated = false) := by
  obtain ⟨res, sr, ttl, ifc⟩ := o
  unfold SendCalls.stepFails at h
  simp only at h
  by_cases hsr : sr < 0
  · cases res with
    | none => simp [mcast_send_socket, hsr]
    | some fam => simp [mcast_send_socket, hsr, freeaddrinfo]
  · have h0 : 0 ≤ sr := by omega
    cases res with
    | none => simp [mcast_send_socket]
    | some fam =>
      cases ttl
      · simp [mcast_send_socket, hsr, freeaddrinfo, h0]
      · cases fam <;> cases ifc <;>
          simp [mcast_send_socket, freeaddrinfo, hsr, h0] <;> simp [hsr] at h

/-- C8 (the code at the failing input): the address resolves to IPv4,
`socket` returns descriptor 3 and the TTL option fails.  A step fails and the
function returns -1 with the address freed, but the socket it opened is still
open at return; when instead every call succeeds and the family is neither
IPv4 nor IPv6, it returns -1 with the address not freed and the socket still
open. -/
theorem send_failure_leaves_socket_open :
    SendCalls.stepFails ⟨some Family.inet, 3, false, true⟩
      ∧ mcast_send_socket ⟨some Family.inet, 3, false, true⟩ = (-1, ⟨false, true⟩)
      ∧ ¬ ((mcast_send_socket ⟨some Family.inet, 3, false, true⟩).2.sockOpen = false)
      ∧ SendCalls.stepFails ⟨some Family.other, 3, true, true⟩
      ∧ mcast_send_socket ⟨some Family.other, 3, true, true⟩ = (-1, ⟨true, true⟩) := by
  refine ⟨Or.inr (Or.inr (Or.inl rfl)), by decide, by decide,
    Or.inr (Or.inr (Or.inr (Or.inr rfl))), by decide⟩

/-- Without a failing step the function returns the socket, with the address
and the socket held by the caller. -/
theorem send_success (o : SendCalls) (h : ¬ o.stepFails) :
    mcast_send_socket o = (o.socketRet, ⟨true, true⟩) := by
  obtain ⟨res, sr, ttl, ifc⟩ := o
  unfold SendCalls.stepFails at h
  simp only [not_or] at h
  obtain ⟨h1, h2, h3, h4, h5⟩ := h
  cases res with
  | none => exact absurd rfl h1
  | some fam =>
    cases fam <;> cases ttl <;> cases ifc <;> simp_all [mcast_send_socket]

/-! ## mcast_recv_socket: the bind loop -/

/-- The loop body never reads the candidate `la` points to: two lists of the
same length give the same run. -/
theorem bindLoop_same_length (o : BindCalls) (localAddr : AddrInfo) (l1 : List AddrInfo) :
    ∀ (l2 : List AddrInfo) (st : BindState), l1.length = l2.length →
      bindLoop o localAddr l1 st = bindLoop o localAddr l2 st := by
  induction l1 with
  | nil =>
    intro l2 st h
    cases l2 with
    | nil => rfl
    | cons _ _ => simp at h
  | cons c1 r1 ih =>
    intro l2 st h
    cases l2 with
    | nil => simp at h
    | cons c2 r2 =>
      have hlen : r1.length = r2.length := by simpa using h
      simp only [bindLoop]
      split_ifs <;> first | rfl | exact ih r2 _ hlen

end Multicast
